import Mathlib

/-!
Verification of the fastblur image-processing pipeline (fastblur 0.2.0,
`src/fastblur.c` and the argp-based main source file).

The C code is shallowly embedded: the pixel buffer `struct img` becomes a
structure holding a total function `ℕ → ℚ` standing for the flat float
array (exact rational arithmetic models the float computations, as the
specification's testable properties are phrased up to floating-point
tolerance); loops writing into buffers become functions describing the
written contents.  C `int` casts of nonnegative float expressions become
`Int.floor`; `MAX(x - q, 0)` on nonnegative ints becomes truncated `ℕ`
subtraction.
-/

/-- `struct img`: width, height, stride (floats per row) and the flat
pixel array, modelled as a total function from flat index to value.
The `owner`/`alloc_size` bookkeeping fields have no observable effect on
pixel values and are omitted. -/
structure Img where
  width : ℕ
  height : ℕ
  stride : ℕ
  pixels : ℕ → ℚ

/-- `a = 1.0f / n` from `img_mov_avg_h`. -/
def movAvgA (n : ℕ) : ℚ := 1 / n

/-- `p = (n - 1) / 2` from `img_mov_avg_h` (C integer division). -/
def movAvgP (n : ℕ) : ℕ := (n - 1) / 2

/-- `q = p + 1` from `img_mov_avg_h`. -/
def movAvgQ (n : ℕ) : ℕ := movAvgP n + 1

/-- One row (one color channel) of `img_mov_avg_h`: `f` is the row access
function `x ↦ src_row[x][c]`, `w` the row width, `n` the kernel size.
`rowMovAvg f w n x` is the value the C code stores in `dst_row[x][c]`:
position 0 by the boundary loops (`dst_row[0] = src_row[0]*q*a` then
`dst_row[0] += a*src_row[x]` for `x = 1 .. q-1`, with no clamping), then
`dst_row[x] = dst_row[x-1] + a*src_row[MIN(x+p, w-1)] - a*src_row[MAX(x-q, 0)]`.
`ℕ` subtraction `x - movAvgQ n` is exactly C's `MAX(x - q, 0)`. -/
def rowMovAvg (f : ℕ → ℚ) (w n : ℕ) : ℕ → ℚ
  | 0 => f 0 * movAvgQ n * movAvgA n + ∑ x ∈ Finset.Ico 1 (movAvgQ n), movAvgA n * f x
  | x + 1 => rowMovAvg f w n x + movAvgA n * f (min (x + 1 + movAvgP n) (w - 1))
      - movAvgA n * f (x + 1 - movAvgQ n)

/-- `clamp(i, 0, w-1)` on an integer index, as used by the specification's
brute-force convolution. -/
def clampIdx (i : ℤ) (w : ℕ) : ℕ := (max 0 (min i ((w : ℤ) - 1))).toNat

/-- Modelled from the spec (the brute-force side of the refinement claim):
"the average, with `a = 1/n` and `p = (n-1)/2`, of
`src[clamp(x-p, 0, W-1)] .. src[clamp(x+p, 0, W-1)]`", i.e. the
clamp-to-edge box convolution of the row `f` at position `x`. -/
def rowBoxBruteSpec (f : ℕ → ℚ) (w n : ℕ) (x : ℕ) : ℚ :=
  movAvgA n * ∑ k ∈ Finset.range n, f (clampIdx ((x : ℤ) + k - movAvgP n) w)

/-- `img_mov_avg_h(src, dst, n)`: the destination buffer after the filter.
`img_set_size(dst, src->width, src->height)` gives the destination
stride `3 * width`; the row loop reads `src->pixels[src->stride * y]`
row by row and writes `dst_row[x][c] = dst->pixels[dst->stride*y + 3*x + c]`.
A flat destination index `i` decomposes as `i = 3*(w*y + x) + c`. -/
def img_mov_avg_h (src : Img) (n : ℕ) : Img where
  width := src.width
  height := src.height
  stride := 3 * src.width
  pixels := fun i =>
    let c := i % 3
    let t := i / 3
    let x := t % src.width
    let y := t / src.width
    rowMovAvg (fun x2 => src.pixels (src.stride * y + 3 * x2 + c)) src.width n x

/-- `img_transpose(src, dst)`: `img_set_size(dst, src->height, src->width)`
(so the destination stride is `3 * src->height`), then
`dst->pixels[IDX(src_h, y, x, 3) + c] = src->pixels[IDX(src_w, x, y, 3) + c]`
with `IDX(w, x, y, s) = s * (w*y + x)`.  Note the source is read at
`3 * (src_w * y + x) + c`, ignoring `src->stride`.  A flat destination
index `i` decomposes as `i = 3*(src_h*x + y) + c`. -/
def img_transpose (src : Img) : Img where
  width := src.height
  height := src.width
  stride := 3 * src.height
  pixels := fun i =>
    let c := i % 3
    let t := i / 3
    let x := t / src.height
    let y := t % src.height
    src.pixels (3 * (src.width * y + x) + c)

/-- `img_crop(src, w, h, x, y)`: a non-owning view with the given width and
height, the stride of the source, and pixels starting at
`&src->pixels[y * src->stride + 3 * x]`. -/
def img_crop (src : Img) (w h x y : ℕ) : Img where
  width := w
  height := h
  stride := src.stride
  pixels := fun i => src.pixels (y * src.stride + 3 * x + i)

/-- A 1-pixel-wide, 2-row image: row 0 holds value 0, row 1 holds value 1. -/
def narrowImg : Img := ⟨1, 2, 3, fun j => if j < 3 then 0 else 1⟩

/-- A 2-pixel-wide, 1-row image whose flat buffer holds `j` at index `j`. -/
def wideImg : Img := ⟨2, 1, 6, fun j => (j : ℚ)⟩

/-- `cropParent` is a 2x2 tightly packed image whose flat buffer holds `j`
at index `j`; `croppedView` is its left 1x2 column as a non-owning view
(`img_crop(parent, 1, 2, 0, 0)`), so the view has width 1, height 2, but
stride 6. -/
def cropParent : Img := ⟨2, 2, 6, fun j => (j : ℚ)⟩

/-- The left column of `cropParent` as a cropped view (stride 6 > 3·1). -/
def croppedView : Img := img_crop cropParent 1 2 0 0

/-- `struct geometry`: target width, target height, anchor. -/
structure Geometry where
  width : ℤ
  height : ℤ
  anchor : ℚ

/-- C's `(int)` cast of a float value: truncation toward zero. -/
def truncQ (q : ℚ) : ℤ := if 0 ≤ q then ⌊q⌋ else ⌈q⌉

/-- The crop-rectangle computation of `img_resize_fill` (duplicated in
`main`'s `CROP_FILL` branch), in exact rational arithmetic: compares the
target aspect ratio with the image aspect ratio, shrinks one crop
dimension to `round(...)` and places it at `round(anchor * excess)`.
Returns `(crop_w, crop_h, crop_x, crop_y)`. -/
def img_resize_fill_crop (w h : ℤ) (geom : Geometry) : ℤ × ℤ × ℤ × ℤ :=
  let crop_aspect : ℚ := (geom.width : ℚ) / (geom.height : ℚ)
  let img_aspect : ℚ := (w : ℚ) / (h : ℚ)
  if img_aspect < crop_aspect then
    let crop_h : ℤ := truncQ ((w : ℚ) / crop_aspect + 1/2)
    let crop_y : ℤ := truncQ (geom.anchor * ((h : ℚ) - (crop_h : ℚ)) + 1/2)
    (w, crop_h, 0, crop_y)
  else
    let crop_w : ℤ := truncQ ((h : ℚ) * crop_aspect + 1/2)
    let crop_x : ℤ := truncQ (geom.anchor * ((w : ℚ) - (crop_w : ℚ)) + 1/2)
    (crop_w, h, crop_x, 0)

/-- `enum pixel_format`. -/
inductive PixelFormat
  | RGB
  | RGBA
  | ARGB
  | BGR
  | BGRA
  | ABGR
deriving DecidableEq

/-- `pixel_format_size[]`: bytes per pixel of each raw layout. -/
def pixel_format_size : PixelFormat → ℕ
  | .RGB => 3
  | .RGBA => 4
  | .ARGB => 4
  | .BGR => 3
  | .BGRA => 4
  | .ABGR => 4

/-- `pixel_format_rgb_offset[][3]`: byte offsets of R, G, B inside one
raw pixel of each layout. -/
def pixel_format_rgb_offset : PixelFormat → Fin 3 → ℕ
  | .RGB => ![0, 1, 2]
  | .RGBA => ![0, 1, 2]
  | .ARGB => ![1, 2, 3]
  | .BGR => ![2, 1, 0]
  | .BGRA => ![2, 1, 0]
  | .ABGR => ![3, 2, 1]

/-- `struct raw_image_format`. -/
structure RawImageFormat where
  format : PixelFormat
  width : ℤ
  height : ℤ
deriving DecidableEq

/-- `gamma_decode_fast` as a map into exact rationals:
`x = v / 255; return x * x`. -/
def gamma_decode_fast_rat (v : ℕ) : ℚ := ((v : ℚ) / 255) * ((v : ℚ) / 255)

/-- `img_gamma_decode_bitmap(img, bitmap, fmt, fast_gamma)`: after
`img_init(img, w, h)`, the loop
`for (i = 0; i < pixel_size*w*h; i += pixel_size) for (c = 0; c < 3; c++)
  img->pixels[i + c] = decode(bitmap[i + offset[c]]);`
writes exactly the flat positions `j` with `j < pixel_size*w*h` and
`j % pixel_size < 3` (then `i = j - j % pixel_size`, `c = j % pixel_size`);
every other position keeps the freshly allocated buffer's previous
content, modelled by `old`.  `decode` is the selected gamma decode map. -/
def img_gamma_decode_bitmap (decode : ℕ → ℚ) (bitmap : ℕ → ℕ) (format : PixelFormat)
    (w h : ℕ) (old : ℕ → ℚ) : Img :=
  let ps := pixel_format_size format
  { width := w
    height := h
    stride := 3 * w
    pixels := fun j =>
      if hj : j < ps * w * h ∧ j % ps < 3 then
        decode (bitmap (j - j % ps + pixel_format_rgb_offset format ⟨j % ps, hj.2⟩))
      else old j }

/-- The source-index computation of `img_interp_nearest`:
`x_src = (int)(x * src_w * (1.0f / dst_w) + 0.5)`, in exact arithmetic. -/
def interp_src_idx (x srcw dstw : ℕ) : ℤ :=
  truncQ ((x : ℚ) * (srcw : ℚ) * (1 / (dstw : ℚ)) + 1/2)

/-- `img_interp_nearest(src, width, height)`: nearest-neighbor scaling;
each destination pixel `(x, y)` copies the three channels of the source
pixel at `(x_src, y_src)` given by `interp_src_idx`. -/
def img_interp_nearest (src : Img) (width height : ℕ) : Img where
  width := width
  height := height
  stride := 3 * width
  pixels := fun i =>
    let c := i % 3
    let t := i / 3
    let x := t % width
    let y := t / width
    src.pixels (src.stride * (interp_src_idx y src.height height).toNat
      + 3 * (interp_src_idx x src.width width).toNat + c)

/-- Leading decimal digits of a character list, accumulated into `acc`;
returns the value and the unconsumed remainder. -/
def parseDigits : List Char → ℕ → ℕ × List Char
  | [], acc => (acc, [])
  | ch :: rest, acc =>
    if ch.isDigit then parseDigits rest (10 * acc + (ch.toNat - '0'.toNat))
    else (acc, ch :: rest)

/-- Digit run starting at the head of `s`; `none` when the head is not a
digit (no characters consumed). -/
def strtolNat (s : List Char) : Option (ℕ × List Char) :=
  match s with
  | ch :: _ => if ch.isDigit then some (parseDigits s 0) else none
  | [] => none

/-- Model of C `strtol(str, &ptr, 10)`: optional whitespace, optional
sign, decimal digits.  `none` models `ptr == str` (no digits consumed);
`some (v, rest)` models the parsed value with `ptr` at `rest`. -/
def strtol (s : List Char) : Option (ℤ × List Char) :=
  match s.dropWhile Char.isWhitespace with
  | '-' :: rest => (strtolNat rest).map (fun vr => (-(vr.1 : ℤ), vr.2))
  | '+' :: rest => (strtolNat rest).map (fun vr => ((vr.1 : ℤ), vr.2))
  | s1 => (strtolNat s1).map (fun vr => ((vr.1 : ℤ), vr.2))

/-- Fractional digit run: `place` is the place value of the next digit. -/
def parseFracDigits : List Char → ℚ → ℚ → ℚ × List Char
  | [], acc, _ => (acc, [])
  | ch :: rest, acc, place =>
    if ch.isDigit then
      parseFracDigits rest (acc + place * ((ch.toNat - '0'.toNat : ℕ) : ℚ)) (place / 10)
    else (acc, ch :: rest)

/-- Model of C `strtof(str, &ptr)` for plain decimal significands
(optional whitespace, optional sign, digits, optional `.` and digits;
at least one digit overall).  The exponent/hex/inf/nan forms accepted by
`strtof` are not modelled; no theorem below depends on them. -/
def strtof (s : List Char) : Option (ℚ × List Char) :=
  let s1 := s.dropWhile Char.isWhitespace
  let neg : Bool := match s1 with
    | '-' :: _ => true
    | _ => false
  let s2 : List Char := match s1 with
    | '-' :: rest => rest
    | '+' :: rest => rest
    | _ => s1
  let intOk : Bool := match s2 with
    | ch :: _ => ch.isDigit
    | [] => false
  let ir := parseDigits s2 0
  match ir.2 with
  | '.' :: r2 =>
    let fracOk : Bool := match r2 with
      | ch :: _ => ch.isDigit
      | [] => false
    let fr := parseFracDigits r2 0 (1/10)
    if intOk || fracOk then
      some (if neg then -((ir.1 : ℚ) + fr.1) else (ir.1 : ℚ) + fr.1, fr.2)
    else none
  | _ => if intOk then some (if neg then -(ir.1 : ℚ) else (ir.1 : ℚ), ir.2) else none

/-- `parse_geometry(str, geom)`: `W`, literal `x`, `H`, then optionally
`@` and an anchor float.  Returns the updated geometry on success
(anchor untouched when no `@` part is present), `none` on the paths
where the C function returns 0. -/
def parse_geometry (s : List Char) (geom : Geometry) : Option Geometry :=
  match strtol s with
  | none => none
  | some (wv, r1) =>
    match r1 with
    | 'x' :: r2 =>
      match strtol r2 with
      | none => none
      | some (hv, r3) =>
        match r3 with
        | '@' :: r4 =>
          match strtof r4 with
          | none => none
          | some (av, _) => some ⟨wv, hv, av⟩
        | _ => some ⟨wv, hv, geom.anchor⟩
    | _ => none

/-- `parse_raw_format(str, raw_fmt)`: `W`, `x`, `H`, `:`, then the layout
string.  Faithfully models the C control flow, in particular
`bool rgb = strncmp(str, "rgb", 3)` (true when the string does NOT start
with `rgb`), the rejection test `if (!rgb && !bgr) return 0` and the
final tag selection, and `str[3] == 'a'` reading the terminator as
`'\x00'` when the layout has exactly three characters. -/
def parse_raw_format (s : List Char) : Option RawImageFormat :=
  match strtol s with
  | none => none
  | some (wv, r1) =>
    match r1 with
    | 'x' :: r2 =>
      match strtol r2 with
      | none => none
      | some (hv, r3) =>
        match r3 with
        | ':' :: r4 =>
          let alpha_first : Bool := r4.headD (Char.ofNat 0) = 'a'
          let r5 := if alpha_first then r4.drop 1 else r4
          let rgb : Bool := decide (r5.take 3 ≠ ['r', 'g', 'b'])
          let bgr : Bool := decide (r5.take 3 ≠ ['b', 'g', 'r'])
          if !rgb && !bgr then none
          else
            let alpha_last : Bool := !alpha_first && (r5.getD 3 (Char.ofNat 0) = 'a')
            let fmt : PixelFormat :=
              if alpha_first then (if rgb then .ARGB else .ABGR)
              else if alpha_last then (if rgb then .RGBA else .BGRA)
              else (if rgb then .RGB else .BGR)
            some ⟨fmt, wv, hv⟩
        | _ => none
    | _ => none

/-- The value `init_gamma_decode_lut` stores in `gamma_decode_lut[v]`:
`powf(v / 255, GAMMA)` with `GAMMA = 2.2 = 11/5`, read in exact real
arithmetic (`^` is `Real.rpow`). -/
noncomputable def gamma_decode_lut_val (v : ℕ) : ℝ := ((v : ℝ) / 255) ^ ((11 : ℝ) / 5)

/-- `gamma_encode`: `(uint8_t)(255 * powf(v, 1/GAMMA) + 0.5)` with
`1/GAMMA = 5/11`; the cast of the nonnegative float is the floor.  The
result is kept in `ℤ` (for inputs in `[0, 1]` it lies in `0..255`, so
the `uint8_t` conversion is value-preserving there). -/
noncomputable def gamma_encode (x : ℝ) : ℤ := ⌊255 * x ^ ((5 : ℝ) / 11) + 1/2⌋

/-- `gamma_decode_fast`: `x = v / 255; return x * x` over the reals. -/
noncomputable def gamma_decode_fast (v : ℕ) : ℝ := ((v : ℝ) / 255) * ((v : ℝ) / 255)

/-- `gamma_encode_fast`: `(uint8_t)(255 * sqrtf(v) + 0.5)`, as for
`gamma_encode`. -/
noncomputable def gamma_encode_fast (x : ℝ) : ℤ := ⌊255 * Real.sqrt x + 1/2⌋

lemma clampIdx_of_nonneg {i : ℤ} (hi : 0 ≤ i) {w : ℕ} (hw : 1 ≤ w) :
    clampIdx i w = min i.toNat (w - 1) := by
  unfold clampIdx; omega

lemma clampIdx_of_le {i : ℤ} {w : ℕ} (hi : i ≤ (w : ℤ) - 1) :
    clampIdx i w = i.toNat := by
  unfold clampIdx; omega

/-- The heart of claim C1: on every position of the row that the C code
can reach without leaving the kernel half-window inside the row
(`q ≤ w`, i.e. `n ≤ 2*w - 1`), the recursive moving average equals the
brute-force clamp-to-edge box convolution, in exact arithmetic. -/
theorem rowMovAvg_eq_boxBrute (f : ℕ → ℚ) (w n : ℕ) (hn : Odd n)
    (hq : movAvgQ n ≤ w) : ∀ x, x < w → rowMovAvg f w n x = rowBoxBruteSpec f w n x := by
  obtain ⟨p, hp⟩ := hn
  have hpn : movAvgP n = p := by unfold movAvgP; omega
  have hqn : movAvgQ n = p + 1 := by unfold movAvgQ; omega
  have hw : 1 ≤ w := le_trans (by omega) hq
  intro x hx
  induction x with
  | zero =>
    unfold rowMovAvg rowBoxBruteSpec
    rw [hpn, hqn]
    have hsplit : n = (p + 1) + p := by omega
    rw [hsplit, Finset.sum_range_add]
    have h1 : ∀ k ∈ Finset.range (p + 1),
        f (clampIdx ((0 : ℕ) + (k : ℤ) - p) w) = f 0 := by
      intro k hk
      rw [Finset.mem_range] at hk
      have : clampIdx ((0 : ℕ) + (k : ℤ) - p) w = 0 := by unfold clampIdx; omega
      rw [this]
    have h2 : ∀ k ∈ Finset.range p,
        f (clampIdx ((0 : ℕ) + ((p + 1 + k : ℕ) : ℤ) - p) w) = f (1 + k) := by
      intro k hk
      rw [Finset.mem_range] at hk
      have : clampIdx ((0 : ℕ) + ((p + 1 + k : ℕ) : ℤ) - p) w = 1 + k := by
        unfold clampIdx; omega
      rw [this]
    rw [Finset.sum_congr rfl h1, Finset.sum_congr rfl h2, Finset.sum_const,
      Finset.card_range, Finset.sum_Ico_eq_sum_range]
    simp only [add_tsub_cancel_left, nsmul_eq_mul]
    rw [← Finset.mul_sum]
    push_cast
    ring
  | succ x ih =>
    have hxw : x < w := by omega
    rw [rowMovAvg, ih hxw]
    unfold rowBoxBruteSpec
    rw [hpn, hqn]
    set g : ℕ → ℚ := fun k => f (clampIdx ((x : ℤ) + k - p) w) with hg
    have hshift : ∀ k ∈ Finset.range n,
        f (clampIdx (((x + 1 : ℕ) : ℤ) + k - p) w) = g (k + 1) := by
      intro k _
      have : ((x + 1 : ℕ) : ℤ) + k - p = (x : ℤ) + (k + 1 : ℕ) - p := by push_cast; ring
      rw [hg]; rw [this]
    rw [Finset.sum_congr rfl hshift]
    have hs1 : ∑ k ∈ Finset.range (n + 1), g k
        = ∑ k ∈ Finset.range n, g (k + 1) + g 0 := Finset.sum_range_succ' g n
    have hs2 : ∑ k ∈ Finset.range (n + 1), g k
        = ∑ k ∈ Finset.range n, g k + g n := Finset.sum_range_succ g n
    have hsum : ∑ k ∈ Finset.range n, g (k + 1)
        = ∑ k ∈ Finset.range n, g k + g n - g 0 := by
      rw [← hs2, hs1]; ring
    rw [hsum]
    have hgn : g n = f (min (x + 1 + p) (w - 1)) := by
      simp only [hg]
      congr 1
      unfold clampIdx; omega
    have hg0 : g 0 = f (x + 1 - (p + 1)) := by
      simp only [hg]
      congr 1
      unfold clampIdx; omega
    rw [hgn, hg0]
    ring

lemma flat_index_decomp (w y x c : ℕ) (hx : x < w) (hc : c < 3) :
    (3 * w * y + 3 * x + c) % 3 = c ∧ (3 * w * y + 3 * x + c) / 3 % w = x
      ∧ (3 * w * y + 3 * x + c) / 3 / w = y := by
  have hw : 0 < w := by omega
  have hkey : 3 * w * y + 3 * x + c = 3 * (w * y) + 3 * x + c := by ring
  rw [hkey]
  have h3 : (3 * (w * y) + 3 * x + c) / 3 = w * y + x := by omega
  refine ⟨by omega, ?_, ?_⟩
  · rw [h3, Nat.mul_add_mod, Nat.mod_eq_of_lt hx]
  · rw [h3, Nat.mul_add_div hw, Nat.div_eq_of_lt hx, Nat.add_zero]

/-- C1 (corrected / amended): for every image, every odd kernel size `n`
with `n ≤ 2*width - 1` (so the half-window `q = (n+1)/2` fits inside the
row and the unclamped boundary loop never leaves it), every row, every
position and every channel, `img_mov_avg_h` produces exactly the
brute-force clamp-to-edge box convolution of that row, in exact
arithmetic.  (As stated for all odd `n ≥ 1`, the claim fails: see
`mov_avg_h_left_edge_differs_from_box_conv`.) -/
theorem mov_avg_h_eq_box_conv_of_kernel_fits (src : Img) (n : ℕ) (hn : Odd n)
    (hnw : n ≤ 2 * src.width - 1) :
    ∀ y < src.height, ∀ x < src.width, ∀ c < 3,
      (img_mov_avg_h src n).pixels (3 * src.width * y + 3 * x + c)
        = rowBoxBruteSpec (fun x2 => src.pixels (src.stride * y + 3 * x2 + c))
            src.width n x := by
  intro y _ x hx c hc
  have hq : movAvgQ n ≤ src.width := by
    obtain ⟨p, hp⟩ := hn
    unfold movAvgQ movAvgP
    omega
  obtain ⟨h1, h2, h3⟩ := flat_index_decomp src.width y x c hx hc
  simp only [img_mov_avg_h]
  rw [h1, h2, h3]
  exact rowMovAvg_eq_boxBrute _ src.width n hn hq x hx

/-- C1 (counterexample): with width 1 and kernel size 3 the boundary loop
of `img_mov_avg_h` reads `src_row[1]`, which lies in the next row of the
buffer, so the output at row 0, position 0 is `1/3` while the brute-force
clamp-to-edge convolution of that row is `0` — far beyond the spec's
`1e-5` tolerance.  The claim fails for odd `n ≥ 2*width + 1`. -/
theorem mov_avg_h_left_edge_differs_from_box_conv :
    |(img_mov_avg_h narrowImg 3).pixels (3 * 1 * 0 + 3 * 0 + 0)
      - rowBoxBruteSpec (fun x2 => narrowImg.pixels (narrowImg.stride * 0 + 3 * x2 + 0))
          narrowImg.width 3 0| > 1 / 100000 := by
  norm_num [img_mov_avg_h, narrowImg, rowMovAvg, rowBoxBruteSpec, clampIdx,
    movAvgA, movAvgP, movAvgQ, Finset.sum_Ico_eq_sum_range, Finset.sum_range_succ]
  rw [abs_of_pos] <;> norm_num

/-- Witness for `mov_avg_h_eq_box_conv_of_kernel_fits` at a concrete input:
width 2, kernel size 3, row 0, position 0, channel 0. -/
theorem mov_avg_h_eq_box_conv_witness :
    Odd 3 ∧ 3 ≤ 2 * wideImg.width - 1 ∧ 0 < wideImg.height ∧ 0 < wideImg.width
      ∧ (img_mov_avg_h wideImg 3).pixels (3 * wideImg.width * 0 + 3 * 0 + 0)
        = rowBoxBruteSpec (fun x2 => wideImg.pixels (wideImg.stride * 0 + 3 * x2 + 0))
            wideImg.width 3 0 :=
  ⟨⟨1, by norm_num⟩, by norm_num [wideImg], by norm_num [wideImg], by norm_num [wideImg],
    mov_avg_h_eq_box_conv_of_kernel_fits wideImg 3 ⟨1, by norm_num⟩
      (by norm_num [wideImg]) 0 (by norm_num [wideImg]) 0 (by norm_num [wideImg])
      0 (by norm_num)⟩

/-- C3 (corrected / amended): for every tightly packed buffer
(`stride = 3 * width`, which holds for every buffer produced by
`img_set_size` / `img_init`, hence for every buffer the program actually
transposes), `img_transpose` swaps width and height and satisfies
`dest[y'][x'] = source[x'][y']` for all valid coordinates, all three
channels.  (On a cropped view with `stride > 3 * width` the claim fails,
because `img_transpose` reads the source at `IDX(src_w, x, y, 3)`,
ignoring `src->stride`: see `transpose_wrong_on_cropped_view`.) -/
theorem transpose_correct_of_packed (src : Img) (hs : src.stride = 3 * src.width) :
    (img_transpose src).width = src.height ∧ (img_transpose src).height = src.width
    ∧ ∀ x < src.width, ∀ y < src.height, ∀ c < 3,
      (img_transpose src).pixels ((img_transpose src).stride * x + 3 * y + c)
        = src.pixels (src.stride * y + 3 * x + c) := by
  refine ⟨rfl, rfl, ?_⟩
  intro x hx y hy c hc
  obtain ⟨h1, h2, h3⟩ := flat_index_decomp src.height x y c hy hc
  simp only [img_transpose]
  rw [h1, h2, h3, hs]
  congr 1
  ring

/-- C3 (counterexample): on the cropped view, transposing and reading the
destination at source coordinates `(x', y') = (0, 1)` yields the parent's
pixel `(1, 0)` (value 3) instead of the view's pixel `(0, 1)` (value 6):
`img_transpose` indexes the source with `3 * width * y` instead of
`stride * y`. -/
theorem transpose_wrong_on_cropped_view :
    (img_transpose croppedView).pixels ((img_transpose croppedView).stride * 0 + 3 * 1 + 0)
      ≠ croppedView.pixels (croppedView.stride * 1 + 3 * 0 + 0) := by
  norm_num [img_transpose, croppedView, img_crop, cropParent]

/-- Witness for `transpose_correct_of_packed` at a concrete packed image. -/
theorem transpose_correct_of_packed_witness :
    wideImg.stride = 3 * wideImg.width
      ∧ (img_transpose wideImg).pixels ((img_transpose wideImg).stride * 1 + 3 * 0 + 0)
        = wideImg.pixels (wideImg.stride * 0 + 3 * 1 + 0) :=
  ⟨rfl, (transpose_correct_of_packed wideImg rfl).2.2 1 (by norm_num [wideImg])
    0 (by norm_num [wideImg]) 0 (by norm_num)⟩

/-- C4 (confirmed): transposing an owned buffer (`stride = 3 * width`, as
produced by `img_set_size`) twice reproduces the original: width and
height are restored and every channel value of every pixel is unchanged. -/
theorem transpose_transpose_id (img : Img) (hs : img.stride = 3 * img.width) :
    (img_transpose (img_transpose img)).width = img.width
    ∧ (img_transpose (img_transpose img)).height = img.height
    ∧ ∀ x < img.width, ∀ y < img.height, ∀ c < 3,
      (img_transpose (img_transpose img)).pixels
          ((img_transpose (img_transpose img)).stride * y + 3 * x + c)
        = img.pixels (img.stride * y + 3 * x + c) := by
  refine ⟨rfl, rfl, ?_⟩
  intro x hx y hy c hc
  obtain ⟨h1, h2, h3⟩ := flat_index_decomp img.width y x c hx hc
  obtain ⟨h4, h5, h6⟩ := flat_index_decomp img.height x y c hy hc
  simp only [img_transpose]
  rw [h1, h2, h3]
  have e : 3 * (img.height * x + y) + c = 3 * img.height * x + 3 * y + c := by ring
  rw [e, h4, h5, h6, hs]
  congr 1
  ring

/-- Witness for `transpose_transpose_id` at a concrete packed image. -/
theorem transpose_transpose_id_witness :
    wideImg.stride = 3 * wideImg.width
      ∧ (img_transpose (img_transpose wideImg)).pixels
          ((img_transpose (img_transpose wideImg)).stride * 0 + 3 * 1 + 0)
        = wideImg.pixels (wideImg.stride * 0 + 3 * 1 + 0) :=
  ⟨rfl, (transpose_transpose_id wideImg rfl).2.2 1 (by norm_num [wideImg])
    0 (by norm_num [wideImg]) 0 (by norm_num)⟩

lemma truncQ_of_nonneg {q : ℚ} (h : 0 ≤ q) : truncQ q = ⌊q⌋ := if_pos h

lemma floor_round_bounds (q : ℚ) : q - 1/2 < (⌊q + 1/2⌋ : ℚ) ∧ (⌊q + 1/2⌋ : ℚ) ≤ q + 1/2 := by
  constructor
  · have := Int.sub_one_lt_floor (q + 1/2)
    linarith
  · exact Int.floor_le _

lemma floor_anchored_bounds {anchor : ℚ} (m : ℤ) (hm : 0 ≤ m)
    (h0 : 0 ≤ anchor) (h1 : anchor ≤ 1) :
    0 ≤ ⌊anchor * (m : ℚ) + 1/2⌋ ∧ ⌊anchor * (m : ℚ) + 1/2⌋ ≤ m := by
  have hm' : (0 : ℚ) ≤ (m : ℚ) := by exact_mod_cast hm
  have hlo : (0 : ℚ) ≤ anchor * (m : ℚ) := mul_nonneg h0 hm'
  have hhi : anchor * (m : ℚ) ≤ (m : ℚ) := by
    calc anchor * (m : ℚ) ≤ 1 * (m : ℚ) := mul_le_mul_of_nonneg_right h1 hm'
    _ = (m : ℚ) := one_mul _
  constructor
  · exact Int.le_floor.2 (by push_cast; linarith)
  · have : anchor * (m : ℚ) + 1/2 < (m : ℚ) + 1 := by linarith
    have := Int.floor_lt.2 (by push_cast; linarith : anchor * (m : ℚ) + 1/2 < ((m + 1 : ℤ) : ℚ))
    omega

/-- C5 (confirmed): for every image size and positive target geometry with
anchor in `[0, 1]`, the fill-crop computation returns a rectangle lying
entirely inside the source image whose aspect ratio matches the target
aspect ratio up to the rounding of one side
(`|crop_w * target_h - crop_h * target_w| ≤ max(target_w, target_h) / 2`);
and the spec's concrete scenario: a 100x50 image fill-resized to 40x40
with anchor 0.5 crops the centered 50x50 square at `(25, 0)`. -/
theorem resize_fill_crop_in_bounds_and_aspect :
    (∀ (w h : ℤ) (geom : Geometry), 1 ≤ w → 1 ≤ h → 1 ≤ geom.width → 1 ≤ geom.height →
      0 ≤ geom.anchor → geom.anchor ≤ 1 →
      ∃ cw ch cx cy, img_resize_fill_crop w h geom = (cw, ch, cx, cy)
        ∧ 0 ≤ cx ∧ 0 ≤ cy ∧ cx + cw ≤ w ∧ cy + ch ≤ h
        ∧ |(cw : ℚ) * (geom.height : ℚ) - (ch : ℚ) * (geom.width : ℚ)|
            ≤ (max geom.width geom.height : ℚ) / 2)
    ∧ img_resize_fill_crop 100 50 ⟨40, 40, 1/2⟩ = (50, 50, 25, 0) := by
  constructor
  · intro w h geom hw hh htw hth ha0 ha1
    have hbQ : (0 : ℚ) < (h : ℚ) := by exact_mod_cast lt_of_lt_of_le one_pos hh
    have haQ : (0 : ℚ) < (w : ℚ) := by exact_mod_cast lt_of_lt_of_le one_pos hw
    have hcQ : (0 : ℚ) < (geom.width : ℚ) := by
      exact_mod_cast lt_of_lt_of_le one_pos htw
    have hdQ : (0 : ℚ) < (geom.height : ℚ) := by
      exact_mod_cast lt_of_lt_of_le one_pos hth
    have hmaxc : (geom.width : ℚ) ≤ (max geom.width geom.height : ℚ) := by
      exact_mod_cast le_max_left geom.width geom.height
    have hmaxd : (geom.height : ℚ) ≤ (max geom.width geom.height : ℚ) := by
      exact_mod_cast le_max_right geom.width geom.height
    simp only [img_resize_fill_crop]
    by_cases hcase : (w : ℚ) / (h : ℚ) < (geom.width : ℚ) / (geom.height : ℚ)
    · rw [if_pos hcase]
      set A : ℚ := (w : ℚ) / ((geom.width : ℚ) / (geom.height : ℚ)) with hA
      have hA2 : A = (w : ℚ) * (geom.height : ℚ) / (geom.width : ℚ) := by
        rw [hA, div_div_eq_mul_div]
      have hApos : 0 < A := by
        rw [hA2]; positivity
      have hAlt : A < (h : ℚ) := by
        rw [hA2, div_lt_iff₀ hcQ]
        have := (div_lt_div_iff₀ hbQ hdQ).1 hcase
        linarith
      rw [truncQ_of_nonneg (by linarith : (0 : ℚ) ≤ A + 1/2)]
      obtain ⟨hchlo, hchhi⟩ := floor_round_bounds A
      have hch0 : 0 ≤ ⌊A + 1/2⌋ := Int.le_floor.2 (by push_cast; linarith)
      have hchh : ⌊A + 1/2⌋ ≤ h := by
        have : (⌊A + 1/2⌋ : ℚ) < ((h + 1 : ℤ) : ℚ) := by push_cast; linarith
        exact_mod_cast Int.lt_add_one_iff.1 (by exact_mod_cast this)
      have hcast : (h : ℚ) - (⌊A + 1/2⌋ : ℚ) = ((h - ⌊A + 1/2⌋ : ℤ) : ℚ) := by push_cast; ring
      rw [hcast, truncQ_of_nonneg (by
        have hc2 : ((⌊A + 1/2⌋ : ℤ) : ℚ) ≤ ((h : ℤ) : ℚ) := by exact_mod_cast hchh
        have : (0 : ℚ) ≤ ((h - ⌊A + 1/2⌋ : ℤ) : ℚ) := by push_cast; push_cast at hc2; linarith
        have := mul_nonneg ha0 this
        linarith)]
      obtain ⟨hcy0, hcyh⟩ := floor_anchored_bounds (h - ⌊A + 1/2⌋) (by omega) ha0 ha1
      refine ⟨w, ⌊A + 1/2⌋, 0, ⌊geom.anchor * ((h - ⌊A + 1/2⌋ : ℤ) : ℚ) + 1/2⌋,
        rfl, le_refl 0, hcy0, by omega, by omega, ?_⟩
      have hAc : A * (geom.width : ℚ) = (w : ℚ) * (geom.height : ℚ) := by
        rw [hA2, div_mul_cancel₀ _ (ne_of_gt hcQ)]
      have hub : (⌊A + 1/2⌋ : ℚ) * (geom.width : ℚ)
          ≤ (w : ℚ) * (geom.height : ℚ) + (geom.width : ℚ) / 2 := by
        have := mul_le_mul_of_nonneg_right hchhi (le_of_lt hcQ)
        rw [add_mul] at this
        linarith [hAc]
      have hlb : (w : ℚ) * (geom.height : ℚ) - (geom.width : ℚ) / 2
          ≤ (⌊A + 1/2⌋ : ℚ) * (geom.width : ℚ) := by
        have := mul_le_mul_of_nonneg_right (le_of_lt hchlo) (le_of_lt hcQ)
        rw [sub_mul] at this
        linarith [hAc]
      rw [abs_le]
      constructor <;> [linarith; linarith]
    · rw [if_neg hcase]
      have hge : (geom.width : ℚ) / (geom.height : ℚ) ≤ (w : ℚ) / (h : ℚ) := le_of_not_lt hcase
      set B : ℚ := (h : ℚ) * ((geom.width : ℚ) / (geom.height : ℚ)) with hB
      have hB2 : B = (h : ℚ) * (geom.width : ℚ) / (geom.height : ℚ) := by
        rw [hB, mul_div_assoc]
      have hBpos : 0 < B := by rw [hB2]; positivity
      have hBle : B ≤ (w : ℚ) := by
        rw [hB2, div_le_iff₀ hdQ]
        have := (div_le_div_iff₀ hdQ hbQ).1 hge
        linarith
      rw [truncQ_of_nonneg (by linarith : (0 : ℚ) ≤ B + 1/2)]
      obtain ⟨hcwlo, hcwhi⟩ := floor_round_bounds B
      have hcw0 : 0 ≤ ⌊B + 1/2⌋ := Int.le_floor.2 (by push_cast; linarith)
      have hcww : ⌊B + 1/2⌋ ≤ w := by
        have : (⌊B + 1/2⌋ : ℚ) < ((w + 1 : ℤ) : ℚ) := by push_cast; linarith
        exact_mod_cast Int.lt_add_one_iff.1 (by exact_mod_cast this)
      have hcast : (w : ℚ) - (⌊B + 1/2⌋ : ℚ) = ((w - ⌊B + 1/2⌋ : ℤ) : ℚ) := by push_cast; ring
      rw [hcast, truncQ_of_nonneg (by
        have hc2 : ((⌊B + 1/2⌋ : ℤ) : ℚ) ≤ ((w : ℤ) : ℚ) := by exact_mod_cast hcww
        have : (0 : ℚ) ≤ ((w - ⌊B + 1/2⌋ : ℤ) : ℚ) := by push_cast; push_cast at hc2; linarith
        have := mul_nonneg ha0 this
        linarith)]
      obtain ⟨hcx0, hcxw⟩ := floor_anchored_bounds (w - ⌊B + 1/2⌋) (by omega) ha0 ha1
      refine ⟨⌊B + 1/2⌋, h, ⌊geom.anchor * ((w - ⌊B + 1/2⌋ : ℤ) : ℚ) + 1/2⌋, 0,
        rfl, hcx0, le_refl 0, by omega, by omega, ?_⟩
      have hBd : B * (geom.height : ℚ) = (h : ℚ) * (geom.width : ℚ) := by
        rw [hB2, div_mul_cancel₀ _ (ne_of_gt hdQ)]
      have hub : (⌊B + 1/2⌋ : ℚ) * (geom.height : ℚ)
          ≤ (h : ℚ) * (geom.width : ℚ) + (geom.height : ℚ) / 2 := by
        have := mul_le_mul_of_nonneg_right hcwhi (le_of_lt hdQ)
        rw [add_mul] at this
        linarith [hBd]
      have hlb : (h : ℚ) * (geom.width : ℚ) - (geom.height : ℚ) / 2
          ≤ (⌊B + 1/2⌋ : ℚ) * (geom.height : ℚ) := by
        have := mul_le_mul_of_nonneg_right (le_of_lt hcwlo) (le_of_lt hdQ)
        rw [sub_mul] at this
        linarith [hBd]
      rw [abs_le]
      constructor <;> [linarith; linarith]
  · norm_num [img_resize_fill_crop, truncQ, Int.floor_eq_iff]

/-- Witness for the universally quantified part of
`resize_fill_crop_in_bounds_and_aspect`, at the spec's concrete scenario
(100x50 image, 40x40 target, anchor 1/2). -/
theorem resize_fill_crop_witness :
    ∃ cw ch cx cy, img_resize_fill_crop 100 50 ⟨40, 40, 1/2⟩ = (cw, ch, cx, cy)
      ∧ 0 ≤ cx ∧ 0 ≤ cy ∧ cx + cw ≤ 100 ∧ cy + ch ≤ 50
      ∧ |(cw : ℚ) * ((40 : ℤ) : ℚ) - (ch : ℚ) * ((40 : ℤ) : ℚ)|
          ≤ (max (40 : ℤ) (40 : ℤ) : ℚ) / 2 :=
  resize_fill_crop_in_bounds_and_aspect.1 100 50 ⟨40, 40, 1/2⟩
    (by norm_num) (by norm_num) (by norm_num) (by norm_num) (by norm_num) (by norm_num)

/-- C6 (code_bug): for 4-byte layouts the decode loop writes
`img->pixels[i + c]` with `i` stepping by `pixel_size = 4`, not by 3, so
pixel `k`'s channels land at flat position `4*k + c` instead of the
packed `3*k + c` the 3-channel buffer layout requires.  Concretely, for
a 2x1 RGBA bitmap holding byte `j` at offset `j`: position `3*1 + 0`
(where pixel 1's R channel belongs) still holds the stale buffer content
(99), the decoded value sits at `4*1 + 0` instead, and the two differ. -/
theorem gamma_decode_bitmap_misplaces_4byte_pixels :
    (img_gamma_decode_bitmap gamma_decode_fast_rat (fun j => j) .RGBA 2 1 (fun _ => 99)).pixels
        (3 * 1 + 0) = 99
    ∧ (img_gamma_decode_bitmap gamma_decode_fast_rat (fun j => j) .RGBA 2 1 (fun _ => 99)).pixels
        (4 * 1 + 0) = gamma_decode_fast_rat (4 * 1 + pixel_format_rgb_offset .RGBA 0)
    ∧ gamma_decode_fast_rat (4 * 1 + pixel_format_rgb_offset .RGBA 0) ≠ 99 := by
  refine ⟨?_, ?_, ?_⟩
  · norm_num [img_gamma_decode_bitmap, pixel_format_size]
  · norm_num [img_gamma_decode_bitmap, pixel_format_size, pixel_format_rgb_offset]
  · norm_num [gamma_decode_fast_rat, pixel_format_rgb_offset]

/-- C7 (code_bug): `parse_raw_format` misuses `strncmp` (which returns 0
on a match): `bool rgb = strncmp(str, "rgb", 3)` is true exactly when the
layout does NOT start with `rgb`, so the rejection test
`if (!rgb && !bgr)` can never fire and every tag assignment is inverted.
Concretely: `argb` yields the ABGR tag (claim: ARGB), `rgba` yields BGRA
(claim: RGBA), and the malformed layout `zzz` is accepted as RGB (claim:
rejected). -/
theorem parse_raw_format_inverts_layout_tags :
    parse_raw_format ("2x2:argb".toList) = some ⟨.ABGR, 2, 2⟩
    ∧ parse_raw_format ("2x2:rgba".toList) = some ⟨.BGRA, 2, 2⟩
    ∧ parse_raw_format ("2x2:zzz".toList) = some ⟨.RGB, 2, 2⟩ := by
  refine ⟨rfl, rfl, rfl⟩

/-- C8 (code_bug): `parse_geometry` checks only the syntactic shape
`W x H [@ A]` and never validates the parsed values, so the geometry
string `0x0@2` is accepted (the function returns 1) with target width 0,
target height 0 and anchor 2 — all three violating the data-model
constraints width > 0, height > 0, anchor ∈ [0, 1]. -/
theorem parse_geometry_accepts_invalid_values :
    parse_geometry ("0x0@2".toList) ⟨-1, -1, 1/2⟩ = some ⟨0, 0, 2⟩ := rfl

/-- C9 (code_bug): upscaling by a factor ≥ 2 drives the nearest-neighbor
source index out of bounds: scaling a width-1 source to width 2,
destination column `x = 1` yields
`x_src = (int)(1 * 1 * (1/2) + 0.5) = 1 ≥ src_w = 1`, so
`img_interp_nearest` reads past the width-1 source row. -/
theorem interp_nearest_src_idx_out_of_bounds :
    interp_src_idx 1 1 2 = 1 := by
  norm_num [interp_src_idx, truncQ, Int.floor_eq_iff]

/-- C10 (code_bug): the boundary-initialization loop of `img_mov_avg_h`
(`for (x = 1; x < q; x++) dst_row[0] += a * src_row[x]`) indexes at or
beyond the row width whenever `q > w`.  With `w = 1`, `n = 3` (`q = 2`)
the two row functions below agree at every in-row index (only index 0)
yet the filter outputs at position 0 differ, so the filter read an index
`≥ w = 1`. -/
theorem mov_avg_h_boundary_reads_out_of_row :
    rowMovAvg (fun i => if i = 0 then 0 else 1) 1 3 0 ≠ rowMovAvg (fun _ => 0) 1 3 0 := by
  norm_num [rowMovAvg, movAvgA, movAvgP, movAvgQ, Finset.sum_Ico_eq_sum_range,
    Finset.sum_range_succ]

lemma round255_bounds {s : ℝ} (hs0 : 0 ≤ s) (hs1 : s ≤ 1) :
    0 ≤ ⌊255 * s + 1/2⌋ ∧ ⌊255 * s + 1/2⌋ ≤ 255
    ∧ |((⌊255 * s + 1/2⌋ : ℤ) : ℝ) / 255 - s| ≤ 1/510 := by
  have hfl : ((⌊255 * s + 1/2⌋ : ℤ) : ℝ) ≤ 255 * s + 1/2 := Int.floor_le _
  have hfg : 255 * s + 1/2 - 1 < ((⌊255 * s + 1/2⌋ : ℤ) : ℝ) := Int.sub_one_lt_floor _
  have h0 : 0 ≤ ⌊255 * s + 1/2⌋ := Int.le_floor.2 (by push_cast; linarith)
  have h255 : ⌊255 * s + 1/2⌋ ≤ 255 := by
    have : ⌊255 * s + 1/2⌋ < 256 := Int.floor_lt.2 (by push_cast; linarith)
    omega
  refine ⟨h0, h255, ?_⟩
  rw [abs_le]
  constructor <;> [linarith; linarith]

lemma rpow_lipschitz {a b : ℝ} (ha : a ∈ Set.Icc (0:ℝ) 1) (hb : b ∈ Set.Icc (0:ℝ) 1) :
    |a ^ ((11 : ℝ) / 5) - b ^ ((11 : ℝ) / 5)| ≤ (11 / 5) * |a - b| := by
  have hderiv : ∀ u ∈ Set.Icc (0:ℝ) 1, HasDerivWithinAt (fun z : ℝ => z ^ ((11 : ℝ) / 5))
      ((fun z : ℝ => (11 / 5) * z ^ ((11 : ℝ) / 5 - 1)) u) (Set.Icc (0:ℝ) 1) u := fun u _ =>
    (Real.hasDerivAt_rpow_const
      (Or.inr (by norm_num : (1:ℝ) ≤ 11 / 5))).hasDerivWithinAt
  have hbound : ∀ u ∈ Set.Icc (0:ℝ) 1,
      ‖(fun z : ℝ => (11 / 5) * z ^ ((11 : ℝ) / 5 - 1)) u‖ ≤ 11 / 5 := by
    intro u hu
    rw [Real.norm_eq_abs, abs_of_nonneg
      (mul_nonneg (by norm_num) (Real.rpow_nonneg hu.1 _))]
    have hle : u ^ ((11 : ℝ) / 5 - 1) ≤ 1 :=
      Real.rpow_le_one hu.1 hu.2 (by norm_num)
    nlinarith
  have key := Convex.norm_image_sub_le_of_norm_hasDerivWithin_le hderiv hbound
    (convex_Icc (0:ℝ) 1) hb ha
  rw [Real.norm_eq_abs, Real.norm_eq_abs] at key
  exact key

lemma numeric_gap : (11 : ℝ) / 2550 ≤ 1 - (254 / 255 : ℝ) ^ ((11 : ℝ) / 5) := by
  have ha : (0:ℝ) ≤ 254 / 255 := by norm_num
  have key : ((254 / 255 : ℝ) ^ ((11 : ℝ) / 5)) ^ (5 : ℕ) ≤ ((2539 / 2550 : ℝ)) ^ (5 : ℕ) := by
    have h1 : ((254 / 255 : ℝ) ^ ((11 : ℝ) / 5)) ^ (5 : ℕ)
        = (254 / 255 : ℝ) ^ (11 : ℕ) := by
      rw [← Real.rpow_natCast ((254 / 255 : ℝ) ^ ((11 : ℝ) / 5)) 5,
        ← Real.rpow_natCast (254 / 255 : ℝ) 11, ← Real.rpow_mul ha]
      norm_num
    rw [h1]
    norm_num
  have h2 : (254 / 255 : ℝ) ^ ((11 : ℝ) / 5) ≤ 2539 / 2550 :=
    le_of_pow_le_pow_left₀ (by norm_num) (by norm_num) key
  linarith

lemma exact_encode_decode (v : ℕ) :
    gamma_encode (gamma_decode_lut_val v) = v := by
  unfold gamma_encode gamma_decode_lut_val
  have h0 : (0:ℝ) ≤ (v : ℝ) / 255 := by positivity
  have h1 : (((v : ℝ) / 255) ^ ((11 : ℝ) / 5)) ^ ((5 : ℝ) / 11) = (v : ℝ) / 255 := by
    rw [← Real.rpow_mul h0]
    norm_num
  rw [h1]
  have h2 : 255 * ((v : ℝ) / 255) + 1/2 = (v : ℝ) + 1/2 := by ring
  rw [h2]
  rw [Int.floor_eq_iff]
  constructor <;> [push_cast; push_cast] <;> linarith

lemma fast_encode_decode (v : ℕ) :
    gamma_encode_fast (gamma_decode_fast v) = v := by
  unfold gamma_encode_fast gamma_decode_fast
  have h0 : (0:ℝ) ≤ (v : ℝ) / 255 := by positivity
  rw [Real.sqrt_mul_self h0]
  have h2 : 255 * ((v : ℝ) / 255) + 1/2 = (v : ℝ) + 1/2 := by ring
  rw [h2, Int.floor_eq_iff]
  constructor <;> [push_cast; push_cast] <;> linarith

lemma fast_decode_encode (x : ℝ) (hx0 : 0 ≤ x) (hx1 : x ≤ 1) :
    |gamma_decode_fast (gamma_encode_fast x).toNat - x| ≤ 1 / 255 := by
  unfold gamma_encode_fast gamma_decode_fast
  have hs0 : 0 ≤ Real.sqrt x := Real.sqrt_nonneg x
  have hs1 : Real.sqrt x ≤ 1 := by
    have := Real.sqrt_le_sqrt hx1
    rwa [Real.sqrt_one] at this
  obtain ⟨h0, h255, hclose⟩ := round255_bounds hs0 hs1
  set v : ℤ := ⌊255 * Real.sqrt x + 1/2⌋ with hv
  have hcast : ((v.toNat : ℕ) : ℝ) = (v : ℝ) := by
    exact_mod_cast Int.toNat_of_nonneg h0
  rw [hcast]
  have hx : x = Real.sqrt x * Real.sqrt x := (Real.mul_self_sqrt hx0).symm
  have ht1 : (v : ℝ) / 255 ≤ 1 := by
    have : (v : ℝ) ≤ 255 := by exact_mod_cast h255
    linarith
  have ht0 : 0 ≤ (v : ℝ) / 255 := by
    have : (0 : ℝ) ≤ (v : ℝ) := by exact_mod_cast h0
    linarith
  have key : (v : ℝ) / 255 * ((v : ℝ) / 255) - x
      = ((v : ℝ) / 255 - Real.sqrt x) * ((v : ℝ) / 255 + Real.sqrt x) := by
    linear_combination -hx
  rw [key, abs_mul]
  have hsum : |(v : ℝ) / 255 + Real.sqrt x| ≤ 2 := by
    rw [abs_of_nonneg (by linarith)]
    linarith
  calc |(v : ℝ) / 255 - Real.sqrt x| * |(v : ℝ) / 255 + Real.sqrt x|
      ≤ (1 / 510) * 2 := by
        apply mul_le_mul hclose hsum (abs_nonneg _) (by norm_num)
  _ = 1 / 255 := by norm_num

lemma exact_decode_encode (x : ℝ) (hx0 : 0 ≤ x) (hx1 : x ≤ 1) :
    |gamma_decode_lut_val (gamma_encode x).toNat - x|
      ≤ 1 - (254 / 255 : ℝ) ^ ((11 : ℝ) / 5) := by
  unfold gamma_encode gamma_decode_lut_val
  have hs0 : 0 ≤ x ^ ((5 : ℝ) / 11) := Real.rpow_nonneg hx0 _
  have hs1 : x ^ ((5 : ℝ) / 11) ≤ 1 := Real.rpow_le_one hx0 hx1 (by norm_num)
  obtain ⟨h0, h255, hclose⟩ := round255_bounds hs0 hs1
  set v : ℤ := ⌊255 * x ^ ((5 : ℝ) / 11) + 1/2⌋ with hv
  have hcast : ((v.toNat : ℕ) : ℝ) = (v : ℝ) := by
    exact_mod_cast Int.toNat_of_nonneg h0
  rw [hcast]
  have hx : (x ^ ((5 : ℝ) / 11)) ^ ((11 : ℝ) / 5) = x := by
    rw [← Real.rpow_mul hx0]
    norm_num
  have ht1 : (v : ℝ) / 255 ≤ 1 := by
    have : (v : ℝ) ≤ 255 := by exact_mod_cast h255
    linarith
  have ht0 : 0 ≤ (v : ℝ) / 255 := by
    have : (0 : ℝ) ≤ (v : ℝ) := by exact_mod_cast h0
    linarith
  have hlip := rpow_lipschitz (a := (v : ℝ) / 255) (b := x ^ ((5 : ℝ) / 11))
    ⟨ht0, ht1⟩ ⟨hs0, hs1⟩
  rw [hx] at hlip
  calc |((v : ℝ) / 255) ^ ((11 : ℝ) / 5) - x|
      ≤ (11 / 5) * |(v : ℝ) / 255 - x ^ ((5 : ℝ) / 11)| := hlip
  _ ≤ (11 / 5) * (1 / 510) := by
      apply mul_le_mul_of_nonneg_left hclose (by norm_num)
  _ ≤ 1 - (254 / 255 : ℝ) ^ ((11 : ℝ) / 5) := by
      have := numeric_gap
      linarith

/-- C2 (confirmed): gamma transfer round-trips in both modes without
mixing modes, for the maps the C code computes read in exact real
arithmetic.  Exact mode: `table[v] = (v/255)^2.2` and
`encode(x) = (uint8)(255 * x^(1/2.2) + 0.5)`; fast mode:
`(v/255)^2` and `(uint8)(255 * sqrt(x) + 0.5)`.  For every 8-bit value,
`encode(decode(v))` is within 1 unit of `v` (in fact equal); for every
linear value in `[0, 1]`, `decode(encode(x))` is within one 8-bit
quantization step of `x` in linear terms — at most
`1 - (254/255)^2.2` (the largest linear-domain gap between consecutive
codes of the exact curve) in exact mode and at most `1/255` in fast
mode. -/
theorem gamma_round_trip_both_modes :
    (∀ v : ℕ, v ≤ 255 → |((gamma_encode (gamma_decode_lut_val v) : ℤ) : ℝ) - (v : ℝ)| ≤ 1)
    ∧ (∀ v : ℕ, v ≤ 255 → |((gamma_encode_fast (gamma_decode_fast v) : ℤ) : ℝ) - (v : ℝ)| ≤ 1)
    ∧ (∀ x : ℝ, 0 ≤ x → x ≤ 1 →
        |gamma_decode_lut_val (gamma_encode x).toNat - x|
          ≤ 1 - (254 / 255 : ℝ) ^ ((11 : ℝ) / 5))
    ∧ (∀ x : ℝ, 0 ≤ x → x ≤ 1 →
        |gamma_decode_fast (gamma_encode_fast x).toNat - x| ≤ 1 / 255) := by
  refine ⟨?_, ?_, exact_decode_encode, fast_decode_encode⟩
  · intro v hv
    rw [exact_encode_decode v]
    simp
  · intro v hv
    rw [fast_encode_decode v]
    simp

/-- Witness for `gamma_round_trip_both_modes`: all four round trips
instantiated at the concrete inputs `v = 128` and `x = 1/4`. -/
theorem gamma_round_trip_witness :
    ((128 : ℕ) ≤ 255
      ∧ |((gamma_encode (gamma_decode_lut_val 128) : ℤ) : ℝ) - (128 : ℝ)| ≤ 1
      ∧ |((gamma_encode_fast (gamma_decode_fast 128) : ℤ) : ℝ) - (128 : ℝ)| ≤ 1)
    ∧ ((0 : ℝ) ≤ 1/4 ∧ (1/4 : ℝ) ≤ 1
      ∧ |gamma_decode_lut_val (gamma_encode (1/4)).toNat - 1/4|
          ≤ 1 - (254 / 255 : ℝ) ^ ((11 : ℝ) / 5)
      ∧ |gamma_decode_fast (gamma_encode_fast (1/4)).toNat - 1/4| ≤ 1 / 255) :=
  ⟨⟨by norm_num, gamma_round_trip_both_modes.1 128 (by norm_num),
      gamma_round_trip_both_modes.2.1 128 (by norm_num)⟩,
    by norm_num, by norm_num,
    gamma_round_trip_both_modes.2.2.1 (1/4) (by norm_num) (by norm_num),
    gamma_round_trip_both_modes.2.2.2 (1/4) (by norm_num) (by norm_num)⟩
